import Mathlib

/-!
Verification of the PPT_generator repository (src/query_base.py and
src/pdf_to_ppt_backup.py) against its natural-language specification.

Strings are modelled as `List Char`.  Python regular-expression rewrites used
by the source are embedded as executable Lean functions on `List Char`:

* `re.sub(r'\*\*(.*?)\*\*', r'\1', t)`  → `subBold`
* `re.sub(r'\*(.*?)\*', r'\1', t)`      → `subItalic`
* `re.sub(r'^.*?KEY=.*$', '', t, flags=re.MULTILINE)` → `dropEchoKey`
* `t.replace('\\n', '\n')`              → `replaceEscN`
* `re.sub(r'\s{2,}', ' ', t)`           → `collapseWs`
* `line.strip()`                        → `trim`
* `re.sub(r'^[•\-\*]\s*', '', line)`    → `stripGlyph`
* `re.sub(r'^\d+\.\s*', '', line)`      → `stripNum`

Whitespace is the ASCII fragment of Python's `\s` class, which is all the
source text ever manipulates.
-/

namespace PPTGen

/-- ASCII fragment of Python's `\s` character class (space, tab, newline,
carriage return, vertical tab, form feed). -/
def isWs (c : Char) : Bool :=
  c = ' ' || c = '\t' || c = '\n' || c = '\r' || c = Char.ofNat 11 || c = Char.ofNat 12

/-- `pfx p l` : `p` is a prefix of `l` (executable). -/
def pfx : List Char → List Char → Bool
  | [], _ => true
  | _ :: _, [] => false
  | a :: as, b :: bs => if a = b then pfx as bs else false

/-- `containsSub p l` : `p` occurs as a contiguous substring of `l`
(Python's `p in l`). -/
def containsSub : List Char → List Char → Bool
  | pat, [] => pat.isEmpty
  | pat, c :: rest => pfx pat (c :: rest) || containsSub pat rest

/-- Python's `text.split('\n')`. -/
def splitLines : List Char → List (List Char)
  | [] => [[]]
  | c :: rest =>
    if c = '\n' then [] :: splitLines rest
    else
      match splitLines rest with
      | [] => [[c]]
      | l :: ls => (c :: l) :: ls

/-- Python's `'\n'.join(lines)`. -/
def joinLines : List (List Char) → List Char
  | [] => []
  | [l] => l
  | l :: ls => l ++ '\n' :: joinLines ls

/-- Left part of Python's `str.strip()`. -/
def trimLeft (l : List Char) : List Char := l.dropWhile isWs

/-- Right part of Python's `str.strip()`. -/
def trimRight : List Char → List Char
  | [] => []
  | c :: rest =>
    match trimRight rest with
    | [] => if isWs c then [] else [c]
    | r => c :: r

/-- Python's `str.strip()` (whitespace trim on both ends). -/
def trim (l : List Char) : List Char := trimRight (trimLeft l)

/-- Scan for the closing `**` of `re.sub(r'\*\*(.*?)\*\*', ...)`: returns the
(non-greedy) captured text and the remainder after the closing delimiter.
`.` does not match a newline, so the search stops at `'\n'`. -/
def findCloseBold : List Char → Option (List Char × List Char)
  | '*' :: '*' :: rest => some ([], rest)
  | '\n' :: _ => none
  | [] => none
  | c :: rest => (findCloseBold rest).map fun p => (c :: p.1, p.2)

/-- Scan for the closing `*` of `re.sub(r'\*(.*?)\*', ...)`. -/
def findCloseItal : List Char → Option (List Char × List Char)
  | '*' :: rest => some ([], rest)
  | '\n' :: _ => none
  | [] => none
  | c :: rest => (findCloseItal rest).map fun p => (c :: p.1, p.2)

/-- Fuelled scanner for `re.sub(r'\*\*(.*?)\*\*', r'\1', text)`.  Each step
consumes at least one input character, so fuel `= length` suffices. -/
def goBold : Nat → List Char → List Char
  | _, [] => []
  | 0, l => l
  | fuel + 1, c :: rest =>
    if c = '*' then
      match rest with
      | c2 :: rest2 =>
        if c2 = '*' then
          match findCloseBold rest2 with
          | some (inner, after) => inner ++ goBold fuel after
          | none => c :: goBold fuel rest
        else c :: goBold fuel rest
      | [] => [c]
    else c :: goBold fuel rest

/-- Fuelled scanner for `re.sub(r'\*(.*?)\*', r'\1', text)`. -/
def goItal : Nat → List Char → List Char
  | _, [] => []
  | 0, l => l
  | fuel + 1, c :: rest =>
    if c = '*' then
      match findCloseItal rest with
      | some (inner, after) => inner ++ goItal fuel after
      | none => c :: goItal fuel rest
    else c :: goItal fuel rest

/-- `re.sub(r'\*\*(.*?)\*\*', r'\1', text)` — remove bold markup. -/
def subBold (l : List Char) : List Char := goBold l.length l

/-- `re.sub(r'\*(.*?)\*', r'\1', text)` — remove italic markup. -/
def subItalic (l : List Char) : List Char := goItal l.length l

/-- One `re.sub(r'^.*?KEY=.*$', '', text, flags=re.MULTILINE)` pass: every
line containing `key` is replaced by the empty line (the newlines stay). -/
def dropEchoKey (key : List Char) (t : List Char) : List Char :=
  joinLines ((splitLines t).map fun l => if containsSub key l then [] else l)

/-- The four successive API-echo line removals of `_clean_response`
(`model=`, `created_at=`, `done=`, `message=`, in source order). -/
def dropEcho (t : List Char) : List Char :=
  dropEchoKey "message=".data
    (dropEchoKey "done=".data
      (dropEchoKey "created_at=".data
        (dropEchoKey "model=".data t)))

/-- Python's `text.replace('\\n', '\n')`: replace every literal
backslash-`n` pair by a newline, left to right, non-overlapping. -/
def replaceEscN : List Char → List Char
  | [] => []
  | [c] => [c]
  | c :: d :: rest =>
    if c = '\\' ∧ d = 'n' then '\n' :: replaceEscN rest
    else c :: replaceEscN (d :: rest)

/-- Pending-whitespace state for `collapseWs`: `some (c, false)` means one
whitespace character `c` has been seen (kept verbatim if the run ends),
`some (c, true)` means a run of two or more (emitted as one space). -/
def flushPend : Option (Char × Bool) → List Char
  | none => []
  | some (c, false) => [c]
  | some (_, true) => [' ']

/-- Extend the pending-whitespace state with one more whitespace char. -/
def bumpPend : Option (Char × Bool) → Char → Option (Char × Bool)
  | none, c => some (c, false)
  | some (c0, _), _ => some (c0, true)

/-- State-machine core of `re.sub(r'\s{2,}', ' ', text)`. -/
def collapseGo (pend : Option (Char × Bool)) : List Char → List Char
  | [] => flushPend pend
  | c :: rest =>
    if isWs c then collapseGo (bumpPend pend c) rest
    else flushPend pend ++ c :: collapseGo none rest

/-- `re.sub(r'\s{2,}', ' ', text)`: each maximal run of two or more
whitespace characters becomes a single space; a lone whitespace character
(including a lone newline) is kept verbatim. -/
def collapseWs (l : List Char) : List Char := collapseGo none l

/-- The per-line filter of `_clean_response` step 5: keep a (stripped) line
iff it is non-empty, does not start with `Example:` and does not contain
`in real-world applications`. -/
def keepLine (l : List Char) : Bool :=
  !l.isEmpty && !pfx "Example:".data l && !containsSub "in real-world applications".data l

/-- `PresentationGenerator._clean_response` (identical in both source
files): markdown removal, API-echo line removal, escaped-newline
replacement, whitespace collapsing, then line-level trim/filter/rejoin. -/
def clean_response (text : List Char) : List Char :=
  let t1 := subItalic (subBold text)
  let t2 := dropEcho t1
  let t3 := replaceEscN t2
  let t4 := collapseWs t3
  joinLines (((splitLines t4).map trim).filter keepLine)

/-- `re.sub(r'^[•\-\*]\s*', '', line)`: strip one leading bullet glyph and
the whitespace following it. -/
def stripGlyph (l : List Char) : List Char :=
  match l with
  | c :: rest => if c = '•' || c = '-' || c = '*' then rest.dropWhile isWs else l
  | [] => l

/-- `re.sub(r'^\d+\.\s*', '', line)`: strip one leading `<digits>.`
numbering prefix and the whitespace following it. -/
def stripNum (l : List Char) : List Char :=
  let ds := l.takeWhile Char.isDigit
  let rest := l.dropWhile Char.isDigit
  if ds.isEmpty then l
  else
    match rest with
    | '.' :: r => r.dropWhile isWs
    | _ => l

/-- The whole per-line rewrite of `_extract_bullet_points`: one bullet
glyph, then one numbering prefix, then emphasis markup. -/
def bulletLineRewrite (l : List Char) : List Char :=
  subItalic (subBold (stripNum (stripGlyph l)))

/-- `PresentationGenerator._extract_bullet_points` (identical in both
source files), translated from the accumulating loop. -/
def extract_bullet_points (text : List Char) : List (List Char) :=
  go (splitLines text)
where
  go : List (List Char) → List (List Char)
    | [] => []
    | line :: rest =>
      let l := trim line
      if l.isEmpty then go rest
      else
        let l2 := bulletLineRewrite l
        if l2.isEmpty then go rest
        else l2 :: go rest

/-- The apostrophe character used by the `content='...'` regex fallback. -/
def quoteChar : Char := Char.ofNat 39

/-- Shape of a reply from the model collaborator, as distinguished by the
`hasattr`/`isinstance` cascade of `generate_response` (lines 61–81 of
`query_base.py`): an object with `.message.content`, a dict whose
`message` is a dict with `content`, a dict whose `message` has a
`.content` attribute, a dict with a `message` of any other shape
(stringified), a dict without `message` (stringified, regex-probed), or
anything else (stringified). -/
inductive ChatResponse where
  | messageObj (content : List Char)
  | dictMsgDict (content : List Char)
  | dictMsgObj (content : List Char)
  | dictMsgOther (s : List Char)
  | dictNoMsg (s : List Char)
  | other (s : List Char)

/-- `re.search(r"content='(.*?)'", result, re.DOTALL)`: find the leftmost
`content='`, then capture (non-greedily, newlines allowed) up to the next
apostrophe; `none` when there is no match. -/
def findContent : List Char → Option (List Char)
  | [] => none
  | c :: rest =>
    if pfx ("content=".data ++ [quoteChar]) (c :: rest) then
      let after := (c :: rest).drop 9
      if after.contains quoteChar then some (after.takeWhile fun d => d ≠ quoteChar)
      else none
    else findContent rest

/-- Payload extraction from a model reply (lines 61–81 of
`query_base.py`; identical in `pdf_to_ppt_backup.py`). -/
def extractPayload : ChatResponse → List Char
  | .messageObj c => c
  | .dictMsgDict c => c
  | .dictMsgObj c => c
  | .dictMsgOther s => s
  | .dictNoMsg s =>
    match findContent s with
    | some inner => inner
    | none => s
  | .other s => s

/-- The static fallback text returned when the model call raises
(lines 94–101 of `query_base.py`), keyed on the lowercased prompt. -/
def fallback_content (prompt : List Char) : List Char :=
  let lp := prompt.map Char.toLower
  if containsSub "bullet points".data lp then
    "• Important historical milestone\n• Key development in AI\n• Significant innovation".data
  else if containsSub "one line".data lp || containsSub "one clear".data lp then
    "The history of artificial intelligence showcases humanity's quest to create machines that can think and learn.".data
  else if containsSub "conclusion".data lp then
    "The history of AI demonstrates our continuous progress in creating intelligent systems. From early rule-based systems to modern neural networks, each advancement brings us closer to machines that can truly think.".data
  else
    "Content generation failed. Please try again with a different prompt.".data

/-- The per-run prompt cache (`self.response_cache`), an association list
from exact prompt to sanitized response; insertion prepends. -/
def Cache := List (List Char × List Char)

/-- Python's `prompt in self.response_cache` / `self.response_cache[prompt]`. -/
def lookupCache : Cache → List Char → Option (List Char)
  | [], _ => none
  | (k, v) :: rest, p => if k = p then some v else lookupCache rest p

/-- Result of one `generate_response` call: the returned string, the cache
afterwards, and whether an outbound model call was made. -/
structure GenResult where
  result : List Char
  cache : Cache
  called : Bool

/-- `PresentationGenerator.generate_response` (lines 42–101 of
`query_base.py`): cache hit returns the cached string with no model call;
otherwise the model is called, a successful reply is sanitized and cached,
and a raised error yields the keyword-matched fallback text, which is
returned WITHOUT being cached. -/
def generate_response (cache : Cache) (model : List Char → Except Unit ChatResponse)
    (prompt : List Char) : GenResult :=
  match lookupCache cache prompt with
  | some r => ⟨r, cache, false⟩
  | none =>
    match model prompt with
    | .ok resp =>
      let result := clean_response (extractPayload resp)
      ⟨result, (prompt, result) :: cache, true⟩
    | .error _ => ⟨fallback_content prompt, cache, true⟩

/-- The initial preview prompt of `generate_preview_slide`
(`query_base.py` line 313). -/
def previewPrompt (topic : List Char) : List Char :=
  "Generate 3-5 important bullet points related to ".data ++ topic ++
    ". Keep each point concise (1-2 sentences). and make sure the minimum words (80 - 100) and maximum words will be (150 - 200)".data

/-- The retry prompt of `generate_preview_slide` (`query_base.py`
line 321). -/
def retryPrompt (topic : List Char) : List Char :=
  "Generate at least 3 key bullet points of  ".data ++ [quoteChar] ++ topic ++ [quoteChar] ++
    ".Only name the topics dont explain them. Do not include any other text or explanation".data

/-- `_add_paragraph` with `is_bullet=True` renders the paragraph text as
`f"• {text}"` (line 259 of `query_base.py`). -/
def bulletParagraph (text : List Char) : List Char :=
  "• ".data ++ text

/-- The two paragraphs the preview loop renders per bullet point
(lines 341–347 of `query_base.py`): the point itself, then a synthetic
`Example: {text} in real-world applications` sub-bullet, both through
`_add_paragraph` with `is_bullet=True`. -/
def previewParagraphs (bulletPoints : List (List Char)) : List (List Char) :=
  bulletPoints.flatMap fun t =>
    [bulletParagraph t,
     bulletParagraph ("Example: ".data ++ t ++ " in real-world applications".data)]

/-- Result of `generate_preview_slide`: the returned title and bullet
list, the paragraph texts rendered onto the slide, and the cache
afterwards. -/
structure PreviewResult where
  title : List Char
  bulletPoints : List (List Char)
  rendered : List (List Char)
  cache : Cache

/-- `PresentationGenerator.generate_preview_slide` (`query_base.py`
lines 305–349): ask for bullet points, extract them, retry once when
fewer than 3 came back, and when the retry still yields fewer than 3
re-prefix each surviving point with `• ` (no padding); then render each
point plus an example sub-bullet. -/
def generate_preview_slide (cache : Cache) (model : List Char → Except Unit ChatResponse)
    (topic : List Char) : PreviewResult :=
  let g1 := generate_response cache model (previewPrompt topic)
  let bp1 := extract_bullet_points g1.result
  let step :=
    if bp1.length < 3 then
      let g2 := generate_response g1.cache model (retryPrompt topic)
      let bp2 := extract_bullet_points g2.result
      (if bp2.length < 3 then bp2.map fun p => "• ".data ++ p else bp2, g2.cache)
    else (bp1, g1.cache)
  ⟨"PREVIEW".data, step.1, previewParagraphs step.1, step.2⟩

/-- A PDF page: its machine-extractable text layer (`page.get_text("text")`)
and the text optical recognition would produce from its rendered image
(`pytesseract.image_to_string`). -/
structure Page where
  textLayer : List Char
  ocrText : List Char

/-- `PDFExtractor.is_scanned_pdf` (`pdf_to_ppt_backup.py` lines 22–27):
open the document, read the first page's extractable text, scan-based iff
it is empty after stripping.  `none` models `doc[0]` raising on a
document with no pages. -/
def is_scanned_pdf (pages : List Page) : Option Bool :=
  match pages with
  | [] => none
  | first :: _ => some (trim first.textLayer).isEmpty

/-- `PDFExtractor.extract_text_from_normal_pdf`: newline-join of the
per-page text layers. -/
def extract_text_from_normal_pdf (pages : List Page) : List Char :=
  joinLines (pages.map Page.textLayer)

/-- `PDFExtractor.extract_text_from_scanned_pdf`: newline-join of the
per-page OCR results. -/
def extract_text_from_scanned_pdf (pages : List Page) : List Char :=
  joinLines (pages.map Page.ocrText)

/-- `PDFExtractor.extract_text` paired with the number of classification
opens it performs: it calls `is_scanned_pdf` (one full document open)
once more instead of reading the stored flag, then extracts. -/
def extract_text_run (pages : List Page) : Option (List Char) × Nat :=
  match is_scanned_pdf pages with
  | none => (none, 1)
  | some true => (some (extract_text_from_scanned_pdf pages), 1)
  | some false => (some (extract_text_from_normal_pdf pages), 1)

/-- `PDFExtractor.__init__` (lines 16–20): store
`is_scanned_pdf(pdf_path)` (one classification open), then store
`extract_text(pdf_path)` (which performs one more classification open
internally).  Returns the stored `(is_scanned, text)` pair together with
the total number of classification opens performed; `none` models the
constructor aborting because `doc[0]` raised (on a document with no
pages), after which no further open happens. -/
def pdfExtractor_init (pages : List Page) : Option (Bool × List Char) × Nat :=
  match is_scanned_pdf pages with
  | none => (none, 1)
  | some b =>
    match extract_text_run pages with
    | (some t, c2) => (some (b, t), 1 + c2)
    | (none, c2) => (none, 1 + c2)

/-- Modelled from the spec (§4.5 contract, for the refinement comparison
of C8): "For each non-empty trimmed line: strip a leading bullet glyph
plus following whitespace, then strip a leading `<digits>.` numbering
prefix, then strip residual emphasis markup, then discard if the line
became empty", preserving input line order. -/
def extractBulletsSpec (text : List Char) : List (List Char) :=
  (splitLines text).filterMap fun line =>
    let t := trim line
    if t.isEmpty then none
    else
      let r := bulletLineRewrite t
      if r.isEmpty then none else some r

/-- `line` starts with a `<digits>.` numbering prefix. -/
def hasNumPfx (l : List Char) : Bool :=
  match l.dropWhile Char.isDigit with
  | '.' :: _ => !(l.takeWhile Char.isDigit).isEmpty
  | _ => false

/-- A model endpoint that is unreachable: every call raises. -/
def failModel : List Char → Except Unit ChatResponse := fun _ => .error ()

/-- A mocked model that echoes `• P1\n• P2\n• P3` for every prompt. -/
def echoModel : List Char → Except Unit ChatResponse :=
  fun _ => .ok (.messageObj "• P1\n• P2\n• P3".data)

/-- A mocked model that answers every prompt with an empty payload. -/
def emptyModel : List Char → Except Unit ChatResponse :=
  fun _ => .ok (.messageObj [])

/-- The pending state of `collapseGo` only ever stores whitespace. -/
def pendWs (pend : Option (Char × Bool)) : Prop :=
  ∀ c b, pend = some (c, b) → isWs c = true

/-- The pending state of `collapseGo` never records a two-or-more run. -/
def pendSingle (pend : Option (Char × Bool)) : Prop :=
  ∀ c, pend ≠ some (c, true)

/-- `noWsPair l` : no two adjacent characters of `l` are both whitespace
(the fixed points of the whitespace-collapsing rewrite). -/
def noWsPair : List Char → Bool
  | c1 :: c2 :: rest => !(isWs c1 && isWs c2) && noWsPair (c2 :: rest)
  | _ => true

/-- A string free of the artifacts of sanitization steps 1–2: emphasis
markup removal and API-echo line removal both leave it unchanged. -/
def artifactFree (y : List Char) : Prop :=
  subBold y = y ∧ subItalic y = y ∧ dropEcho y = y

example : trim " a b ".data = "a b".data := by decide
example : splitLines "a\nb".data = ["a".data, "b".data] := by decide
example : splitLines "".data = [[]] := by decide
example : joinLines ["a".data, "b".data] = "a\nb".data := by decide
example : containsSub "model=".data "xmodel=3".data = true := by decide
example : containsSub "model=".data "mode l=3".data = false := by decide
example : subBold "**bold** x".data = "bold x".data := by decide
example : subItalic "*it* x".data = "it x".data := by decide
example : subBold "***a**".data = "*a".data := by decide
example : clean_response "a\nmodel=x\nb".data = "a b".data := by decide
example : clean_response "• P1\n• P2\n• P3".data = "• P1\n• P2\n• P3".data := by decide
example : extract_bullet_points "• A\n- B\n1. C\n\n".data = ["A".data, "B".data, "C".data] := by decide
example : extract_bullet_points "1. - A\n1. 2. B".data = ["- A".data, "2. B".data] := by decide
example : clean_response "Example: x\nkeep".data = "keep".data := by decide
example : replaceEscN "a\\nb".data = "a\nb".data := by decide
example : collapseWs "a\n\nb".data = "a b".data := by decide
example : collapseWs "a\nb".data = "a\nb".data := by decide

/-! ### General helper lemmas -/

theorem extract_go_eq_filterMap (ls : List (List Char)) :
    extract_bullet_points.go ls = ls.filterMap fun line =>
      let t := trim line
      if t.isEmpty then none
      else
        let r := bulletLineRewrite t
        if r.isEmpty then none else some r := by
  induction ls with
  | nil => rfl
  | cons l rest ih =>
    simp only [extract_bullet_points.go, List.filterMap_cons]
    by_cases h1 : (trim l).isEmpty
    · simp [h1, ih]
    · by_cases h2 : (bulletLineRewrite (trim l)).isEmpty
      · simp [h1, h2, ih]
      · simp [h1, h2, ih]

theorem extract_eq_spec (text : List Char) :
    extract_bullet_points text = extractBulletsSpec text :=
  extract_go_eq_filterMap (splitLines text)

theorem trimRight_eq_nil_iff (l : List Char) :
    trimRight l = [] ↔ ∀ c ∈ l, isWs c = true := by
  induction l with
  | nil => simp [trimRight]
  | cons c rest ih =>
    simp only [trimRight]
    cases h : trimRight rest with
    | nil =>
      constructor
      · intro h2
        by_cases hc : isWs c
        · intro d hd
          rcases List.mem_cons.mp hd with rfl | hd
          · exact hc
          · exact (ih.mp h) d hd
        · simp [hc] at h2
      · intro hall
        simp [hall c (List.mem_cons_self c rest)]
    | cons x xs =>
      constructor
      · intro h2
        exact absurd h2 (by simp)
      · intro hall
        have : trimRight rest = [] := ih.mpr fun d hd => hall d (List.mem_cons_of_mem c hd)
        rw [this] at h
        exact absurd h (by simp)

theorem trim_eq_nil_iff (l : List Char) :
    (trim l).isEmpty = true ↔ ∀ c ∈ l, isWs c = true := by
  rw [List.isEmpty_iff, trim, trimRight_eq_nil_iff, trimLeft]
  constructor
  · intro h c hc
    rcases List.mem_append.mp ((List.takeWhile_append_dropWhile (p := isWs) (l := l)) ▸ hc) with h1 | h1
    · exact List.mem_takeWhile_imp h1
    · exact h c h1
  · intro h c hc
    exact h c (List.Sublist.mem hc (List.dropWhile_sublist (p := isWs) (l := l)))

/-! ### C3 — Document classifier -/

/-- C3: the classifier marks a document scan-based iff the first page's
extracted text is empty after trimming (equivalently, the first page
yields only whitespace), regardless of the content of later pages. -/
theorem c3_classifier_first_page :
    ∀ (first : Page) (rest rest' : List Page),
      (is_scanned_pdf (first :: rest) = some true ↔
        ∀ c ∈ first.textLayer, isWs c = true) ∧
      is_scanned_pdf (first :: rest) = is_scanned_pdf (first :: rest') := by
  intro first rest rest'
  refine ⟨?_, rfl⟩
  simp only [is_scanned_pdf, Option.some_inj]
  exact trim_eq_nil_iff first.textLayer

/-! ### C9 — Classification opens -/

/-- C9 counterexample: constructing a `PDFExtractor` performs TWO
classification opens (one stored in `__init__`, one recomputed inside
`extract_text`), not one, already on a one-page text document. -/
theorem c9_counterexample :
    (pdfExtractor_init [⟨"hello".data, "ocr".data⟩]).2 = 2 ∧
      ¬ (pdfExtractor_init [⟨"hello".data, "ocr".data⟩]).2 = 1 := by
  constructor
  · rfl
  · decide

/-- C9 amended: constructing a `PDFExtractor` on a document that opens
successfully performs exactly two classification opens (`__init__`
stores one result, `extract_text` recomputes it instead of reading the
stored flag); both computations return the classifier's value for the
first page, the stored flag equals it, and the extracted text follows
that same classification (OCR concatenation when scan-based, text-layer
concatenation otherwise). -/
theorem c9_amended_two_opens (first : Page) (rest : List Page) :
    (pdfExtractor_init (first :: rest)).2 = 2 ∧
      (pdfExtractor_init (first :: rest)).1 =
        some ((trim first.textLayer).isEmpty,
          if (trim first.textLayer).isEmpty
          then extract_text_from_scanned_pdf (first :: rest)
          else extract_text_from_normal_pdf (first :: rest)) := by
  refine ⟨?_, ?_⟩ <;>
    · simp only [pdfExtractor_init, extract_text_run, is_scanned_pdf]
      cases h : (trim first.textLayer).isEmpty <;> simp

/-! ### Substring lemmas -/

theorem pfx_nil_iff (p : List Char) : pfx p [] = true ↔ p = [] := by
  cases p <;> simp [pfx]

theorem pfx_append {p a : List Char} (b : List Char) (h : pfx p a = true) :
    pfx p (a ++ b) = true := by
  induction p generalizing a with
  | nil => rfl
  | cons x xs ih =>
    cases a with
    | nil => simp [pfx] at h
    | cons y ys =>
      by_cases hxy : x = y
      · simp only [pfx, List.cons_append, if_pos hxy] at h ⊢
        exact ih h
      · simp [pfx, hxy] at h

theorem ctns_of_pfx {p l : List Char} (h : pfx p l = true) :
    containsSub p l = true := by
  cases l with
  | nil => cases p with
    | nil => rfl
    | cons x xs => simp [pfx] at h
  | cons c rest => simp [containsSub, h]

theorem ctns_cons {p rest : List Char} (c : Char) (h : containsSub p rest = true) :
    containsSub p (c :: rest) = true := by
  simp [containsSub, h]

theorem ctns_append_right {p b : List Char} (a : List Char)
    (h : containsSub p b = true) : containsSub p (a ++ b) = true := by
  induction a with
  | nil => exact h
  | cons c a ih => exact ctns_cons c ih

theorem ctns_append_left {p a : List Char} (b : List Char)
    (h : containsSub p a = true) : containsSub p (a ++ b) = true := by
  induction a with
  | nil =>
    have : p = [] := by simpa [containsSub, List.isEmpty_iff] using h
    subst this
    exact ctns_of_pfx rfl
  | cons c a ih =>
    simp only [containsSub, Bool.or_eq_true] at h
    rcases h with h | h
    · simpa [containsSub] using Or.inl (pfx_append b h)
    · exact ctns_cons c (ih h)

theorem ctns_infix {p m : List Char} (a b : List Char)
    (h : containsSub p m = true) : containsSub p (a ++ m ++ b) = true := by
  rw [List.append_assoc]
  exact ctns_append_right a (ctns_append_left b h)

theorem pfx_through_sep {p : List Char} {c : Char} (a b : List Char)
    (hc : c ∉ p) (h : pfx p (a ++ c :: b) = true) :
    p = [] ∨ pfx p a = true := by
  induction a generalizing p with
  | nil =>
    cases p with
    | nil => exact Or.inl rfl
    | cons x xs =>
      by_cases hxc : x = c
      · exact absurd (hxc ▸ List.mem_cons_self x xs) hc
      · simp [pfx, hxc] at h
  | cons y a ih =>
    cases p with
    | nil => exact Or.inl rfl
    | cons x xs =>
      by_cases hxy : x = y
      · simp only [List.cons_append, pfx, if_pos hxy] at h
        rcases ih (fun hm => hc (List.mem_cons_of_mem x hm)) h with h1 | h1
        · subst h1
          exact Or.inr (by simp [pfx, hxy])
        · exact Or.inr (by simp [pfx, hxy, h1])
      · simp [pfx, List.cons_append, hxy] at h

theorem ctns_through_sep {p : List Char} {c : Char} (a b : List Char)
    (hp : p ≠ []) (hc : c ∉ p) (h : containsSub p (a ++ c :: b) = true) :
    containsSub p a = true ∨ containsSub p b = true := by
  induction a with
  | nil =>
    simp only [List.nil_append, containsSub, Bool.or_eq_true] at h
    rcases h with h | h
    · cases p with
      | nil => exact absurd rfl hp
      | cons x xs =>
        by_cases hxc : x = c
        · exact absurd (hxc ▸ List.mem_cons_self x xs) hc
        · simp [pfx, hxc] at h
    · exact Or.inr h
  | cons y a ih =>
    simp only [List.cons_append, containsSub, Bool.or_eq_true] at h
    rcases h with h | h
    · rcases pfx_through_sep (y :: a) b hc h with h1 | h1
      · exact absurd h1 hp
      · exact Or.inl (ctns_of_pfx h1)
    · rcases ih h with h1 | h1
      · exact Or.inl (ctns_cons y h1)
      · exact Or.inr h1

theorem ctns_joinLines {p : List Char} (ls : List (List Char))
    (hp : p ≠ []) (hnl : '\n' ∉ p) (h : containsSub p (joinLines ls) = true) :
    ∃ l ∈ ls, containsSub p l = true := by
  induction ls with
  | nil =>
    rw [joinLines] at h
    simp only [containsSub, List.isEmpty_iff] at h
    exact absurd h hp
  | cons l ls ih =>
    cases ls with
    | nil => exact ⟨l, List.mem_singleton_self l, h⟩
    | cons m ms =>
      have hJ : joinLines (l :: m :: ms) = l ++ '\n' :: joinLines (m :: ms) := rfl
      rw [hJ] at h
      rcases ctns_through_sep l (joinLines (m :: ms)) hp hnl h with h1 | h1
      · exact ⟨l, List.mem_cons_self l _, h1⟩
      · obtain ⟨x, hx, hx2⟩ := ih h1
        exact ⟨x, List.mem_cons_of_mem l hx, hx2⟩

/-! ### splitLines / joinLines structure lemmas -/

theorem splitLines_ne_nil (s : List Char) : splitLines s ≠ [] := by
  cases s with
  | nil => simp [splitLines]
  | cons c rest =>
    by_cases h : c = '\n'
    · simp [splitLines, h]
    · simp only [splitLines, if_neg h]
      cases splitLines rest <;> simp

theorem splitLines_head_pfx (s : List Char) :
    ∀ h t, splitLines s = h :: t → ∃ b, s = h ++ b := by
  induction s with
  | nil =>
    intro h t he
    rw [splitLines] at he
    cases he
    exact ⟨[], rfl⟩
  | cons c rest ih =>
    intro h t he
    by_cases hc : c = '\n'
    · rw [splitLines, if_pos hc] at he
      cases he
      exact ⟨c :: rest, rfl⟩
    · rw [splitLines, if_neg hc] at he
      cases hsr : splitLines rest with
      | nil => exact absurd hsr (splitLines_ne_nil rest)
      | cons h0 t0 =>
        rw [hsr] at he
        have he2 : (c :: h0) :: t0 = h :: t := he
        injection he2 with he3 he4
        obtain ⟨b, hb⟩ := ih h0 t0 hsr
        exact ⟨b, by rw [← he3, List.cons_append, ← hb]⟩

theorem mem_splitLines_decomp {l s : List Char} (h : l ∈ splitLines s) :
    ∃ a b, s = a ++ l ++ b := by
  induction s generalizing l with
  | nil =>
    rw [splitLines] at h
    rcases List.mem_singleton.mp h with rfl
    exact ⟨[], [], rfl⟩
  | cons c rest ih =>
    by_cases hc : c = '\n'
    · rw [splitLines, if_pos hc] at h
      rcases List.mem_cons.mp h with rfl | h
      · exact ⟨[], c :: rest, rfl⟩
      · obtain ⟨a, b, hab⟩ := ih h
        exact ⟨c :: a, b, by rw [hab]; rfl⟩
    · rw [splitLines, if_neg hc] at h
      cases hsr : splitLines rest with
      | nil => exact absurd hsr (splitLines_ne_nil rest)
      | cons h0 t0 =>
        rw [hsr] at h
        rcases List.mem_cons.mp h with rfl | h
        · obtain ⟨b, hb⟩ := splitLines_head_pfx rest h0 t0 hsr
          exact ⟨[], b, by rw [hb]; rfl⟩
        · obtain ⟨a, b, hab⟩ := ih (hsr ▸ List.mem_cons_of_mem h0 h)
          exact ⟨c :: a, b, by rw [hab]; rfl⟩

theorem mem_splitLines_no_newline {l s : List Char} (h : l ∈ splitLines s) :
    '\n' ∉ l := by
  induction s generalizing l with
  | nil =>
    rw [splitLines] at h
    rcases List.mem_singleton.mp h with rfl
    simp
  | cons c rest ih =>
    by_cases hc : c = '\n'
    · rw [splitLines, if_pos hc] at h
      rcases List.mem_cons.mp h with rfl | h
      · simp
      · exact ih h
    · rw [splitLines, if_neg hc] at h
      cases hsr : splitLines rest with
      | nil => exact absurd hsr (splitLines_ne_nil rest)
      | cons h0 t0 =>
        rw [hsr] at h
        rcases List.mem_cons.mp h with rfl | h
        · intro hmem
          rcases List.mem_cons.mp hmem with he | hmem
          · exact hc he.symm
          · exact ih (hsr ▸ List.mem_cons_self h0 t0) hmem
        · exact ih (hsr ▸ List.mem_cons_of_mem h0 h)

theorem splitLines_no_newline {l : List Char} (h : '\n' ∉ l) :
    splitLines l = [l] := by
  induction l with
  | nil => rfl
  | cons c rest ih =>
    have hc : ¬ c = '\n' := fun he => h (he ▸ List.mem_cons_self c rest)
    rw [splitLines, if_neg hc, ih fun hm => h (List.mem_cons_of_mem c hm)]

theorem splitLines_append_newline {l : List Char} (rest : List Char)
    (h : '\n' ∉ l) : splitLines (l ++ '\n' :: rest) = l :: splitLines rest := by
  induction l with
  | nil => simp [splitLines]
  | cons c l ih =>
    have hc : ¬ c = '\n' := fun he => h (he ▸ List.mem_cons_self c l)
    rw [List.cons_append, splitLines, if_neg hc,
      ih fun hm => h (List.mem_cons_of_mem c hm)]

theorem splitLines_joinLines {ls : List (List Char)} (hne : ls ≠ [])
    (hnl : ∀ l ∈ ls, '\n' ∉ l) : splitLines (joinLines ls) = ls := by
  induction ls with
  | nil => exact absurd rfl hne
  | cons l ls ih =>
    cases ls with
    | nil => exact splitLines_no_newline (hnl l (List.mem_singleton_self l))
    | cons m ms =>
      have hJ : joinLines (l :: m :: ms) = l ++ '\n' :: joinLines (m :: ms) := rfl
      rw [hJ,
        splitLines_append_newline (joinLines (m :: ms)) (hnl l (List.mem_cons_self l _)),
        ih (by simp) fun x hx => hnl x (List.mem_cons_of_mem l hx)]

theorem joinLines_cons_cons (c : Char) (h : List Char) (t : List (List Char)) :
    joinLines ((c :: h) :: t) = c :: joinLines (h :: t) := by
  cases t with
  | nil => rfl
  | cons m ms => rfl

theorem joinLines_splitLines (s : List Char) : joinLines (splitLines s) = s := by
  induction s with
  | nil => rfl
  | cons c rest ih =>
    by_cases hc : c = '\n'
    · rw [splitLines, if_pos hc]
      cases hsr : splitLines rest with
      | nil => exact absurd hsr (splitLines_ne_nil rest)
      | cons h0 t0 =>
        show '\n' :: joinLines (h0 :: t0) = c :: rest
        rw [← hsr, ih, hc]
    · rw [splitLines, if_neg hc]
      cases hsr : splitLines rest with
      | nil => exact absurd hsr (splitLines_ne_nil rest)
      | cons h0 t0 =>
        show joinLines ((c :: h0) :: t0) = c :: rest
        rw [joinLines_cons_cons, ← hsr, ih]

/-! ### trim lemmas -/

theorem trimLeft_decomp (l : List Char) : ∃ a, l = a ++ trimLeft l :=
  ⟨l.takeWhile isWs, (List.takeWhile_append_dropWhile (p := isWs) (l := l)).symm⟩

theorem trimRight_decomp (l : List Char) : ∃ b, l = trimRight l ++ b := by
  induction l with
  | nil => exact ⟨[], rfl⟩
  | cons c rest ih =>
    obtain ⟨b, hb⟩ := ih
    rw [trimRight]
    cases hr : trimRight rest with
    | nil =>
      by_cases hc : isWs c
      · exact ⟨c :: rest, by simp [hc]⟩
      · exact ⟨rest, by simp [hc]⟩
    | cons r rs =>
      rw [hr] at hb
      exact ⟨b, by rw [List.cons_append, ← hb]⟩

theorem trim_decomp (l : List Char) : ∃ a b, l = a ++ trim l ++ b := by
  obtain ⟨a, ha⟩ := trimLeft_decomp l
  obtain ⟨b, hb⟩ := trimRight_decomp (trimLeft l)
  refine ⟨a, b, ?_⟩
  conv_lhs => rw [ha, hb]
  rw [trim, List.append_assoc]

theorem ctns_trim {p l : List Char} (h : containsSub p (trim l) = true) :
    containsSub p l = true := by
  obtain ⟨a, b, hab⟩ := trim_decomp l
  rw [hab]
  exact ctns_infix a b h

theorem mem_trim {c : Char} {l : List Char} (h : c ∈ trim l) : c ∈ l := by
  obtain ⟨a, b, hab⟩ := trim_decomp l
  rw [hab]
  exact List.mem_append.mpr (Or.inl (List.mem_append.mpr (Or.inr h)))

theorem trimLeft_head_not_ws (l : List Char) :
    ∀ c, (trimLeft l).head? = some c → isWs c = false := by
  induction l with
  | nil => intro c h; cases h
  | cons d rest ih =>
    intro c h
    by_cases hd : isWs d
    · rw [trimLeft, List.dropWhile_cons_of_pos hd] at h
      exact ih c h
    · rw [trimLeft, List.dropWhile_cons_of_neg hd] at h
      cases h
      simpa using hd

theorem trimRight_head? (l : List Char) :
    trimRight l = [] ∨ (trimRight l).head? = l.head? := by
  cases l with
  | nil => exact Or.inl rfl
  | cons c rest =>
    rw [trimRight]
    cases trimRight rest with
    | nil =>
      by_cases hc : isWs c
      · simp [hc]
      · simp [hc]
    | cons r rs => simp

theorem trimRight_last_not_ws (l : List Char) :
    ∀ c, (trimRight l).getLast? = some c → isWs c = false := by
  induction l with
  | nil => intro c h; cases h
  | cons d rest ih =>
    intro c h
    rw [trimRight] at h
    cases hr : trimRight rest with
    | nil =>
      rw [hr] at h
      by_cases hd : isWs d
      · simp [hd] at h
      · have h3 : [d].getLast? = some c := by simpa [hd] using h
        rw [List.getLast?_singleton] at h3
        have h4 : c = d := (Option.some_inj.mp h3).symm
        subst h4
        simpa using hd
    | cons r rs =>
      rw [hr] at h
      rw [List.getLast?_cons_cons] at h
      rw [← hr] at h
      exact ih c h

theorem trimLeft_eq_self (l : List Char)
    (h : ∀ c, l.head? = some c → isWs c = false) : trimLeft l = l := by
  cases l with
  | nil => rfl
  | cons c rest =>
    have := h c rfl
    rw [trimLeft, List.dropWhile_cons_of_neg (by simp [this])]

theorem trimRight_eq_self (l : List Char)
    (h : ∀ c, l.getLast? = some c → isWs c = false) : trimRight l = l := by
  induction l with
  | nil => rfl
  | cons c rest ih =>
    cases rest with
    | nil =>
      have := h c rfl
      simp [trimRight, this]
    | cons d ds =>
      have hrest : trimRight (d :: ds) = d :: ds :=
        ih fun x hx => h x (by rw [List.getLast?_cons_cons]; exact hx)
      rw [trimRight, hrest]

theorem trim_head_not_ws (l : List Char) :
    ∀ c, (trim l).head? = some c → isWs c = false := by
  intro c h
  rcases trimRight_head? (trimLeft l) with h1 | h1
  · rw [trim, h1] at h
    cases h
  · rw [trim, h1] at h
    exact trimLeft_head_not_ws l c h

theorem trim_last_not_ws (l : List Char) :
    ∀ c, (trim l).getLast? = some c → isWs c = false :=
  trimRight_last_not_ws (trimLeft l)

theorem trim_trim (l : List Char) : trim (trim l) = trim l := by
  have h1 : trimLeft (trim l) = trim l := trimLeft_eq_self _ (trim_head_not_ws l)
  rw [trim, h1]
  exact trimRight_eq_self _ (trim_last_not_ws l)

/-! ### replaceEscN lemmas -/

theorem pfx_replaceEscN :
    ∀ (l pat : List Char), '\n' ∉ pat → pfx pat (replaceEscN l) = true → pfx pat l = true := by
  intro l
  induction l using replaceEscN.induct with
  | case1 => intro pat _ h; exact h
  | case2 c => intro pat _ h; exact h
  | case3 c d rest hcd ih =>
    intro pat hnl
    rw [replaceEscN, if_pos hcd]
    intro h
    cases pat with
    | nil => rfl
    | cons p ps =>
      have hp : p = '\n' := by
        by_cases hpn : p = '\n'
        · exact hpn
        · simp [pfx, hpn] at h
      exact absurd (hp ▸ List.mem_cons_self p ps) hnl
  | case4 c d rest hcd ih =>
    intro pat hnl
    rw [replaceEscN, if_neg hcd]
    intro h
    cases pat with
    | nil => rfl
    | cons p ps =>
      by_cases hpc : p = c
      · rw [pfx, if_pos hpc] at h ⊢
        exact ih ps (fun hm => hnl (List.mem_cons_of_mem p hm)) h
      · rw [pfx, if_neg hpc] at h
        cases h

theorem ctns_replaceEscN {pat : List Char} (hnl : '\n' ∉ pat) (hp : pat ≠ []) :
    ∀ l, containsSub pat (replaceEscN l) = true → containsSub pat l = true := by
  intro l
  induction l using replaceEscN.induct with
  | case1 => intro h; exact h
  | case2 c => intro h; exact h
  | case3 c d rest hcd ih =>
    rw [replaceEscN, if_pos hcd]
    intro h
    rw [containsSub, Bool.or_eq_true] at h
    rcases h with h | h
    · cases pat with
      | nil => exact absurd rfl hp
      | cons p ps =>
        have hpn : p = '\n' := by
          by_cases hx : p = '\n'
          · exact hx
          · simp [pfx, hx] at h
        exact absurd (hpn ▸ List.mem_cons_self p ps) hnl
    · exact ctns_cons c (ctns_cons d (ih h))
  | case4 c d rest hcd ih =>
    rw [replaceEscN, if_neg hcd]
    intro h
    rw [containsSub, Bool.or_eq_true] at h
    rcases h with h | h
    · cases pat with
      | nil => exact absurd rfl hp
      | cons p ps =>
        by_cases hpc : p = c
        · rw [pfx, if_pos hpc] at h
          have := pfx_replaceEscN (d :: rest) ps (fun hm => hnl (List.mem_cons_of_mem p hm)) h
          exact ctns_of_pfx (by rw [pfx, if_pos hpc]; exact this)
        · rw [pfx, if_neg hpc] at h
          cases h
    · exact ctns_cons c (ih h)

theorem noEsc_replaceEscN : ∀ l, containsSub "\\n".data (replaceEscN l) = false := by
  intro l
  induction l using replaceEscN.induct with
  | case1 => rfl
  | case2 c =>
    show (pfx "\\n".data [c] || containsSub "\\n".data []) = false
    cases hc : pfx "\\n".data [c] with
    | true =>
      exfalso
      by_cases h1 : '\\' = c
      · simp [pfx, h1] at hc
      · simp [pfx, h1] at hc
    | false => rfl
  | case3 c d rest hcd ih =>
    rw [replaceEscN, if_pos hcd]
    show (pfx "\\n".data ('\n' :: replaceEscN rest)
        || containsSub "\\n".data (replaceEscN rest)) = false
    rw [ih]
    have : pfx "\\n".data ('\n' :: replaceEscN rest) = false := by
      by_cases h1 : '\\' = '\n'
      · exact absurd h1 (by decide)
      · simp [pfx, h1]
    rw [this]
    rfl
  | case4 c d rest hcd ih =>
    rw [replaceEscN, if_neg hcd]
    show (pfx "\\n".data (c :: replaceEscN (d :: rest))
        || containsSub "\\n".data (replaceEscN (d :: rest))) = false
    rw [ih]
    cases hpf : pfx "\\n".data (c :: replaceEscN (d :: rest)) with
    | true =>
      exfalso
      by_cases h1 : '\\' = c
      · rw [pfx, if_pos h1] at hpf
        have hn : (replaceEscN (d :: rest)).head? = some 'n' := by
          cases hre : replaceEscN (d :: rest) with
          | nil => rw [hre] at hpf; simp [pfx] at hpf
          | cons x xs =>
            rw [hre] at hpf
            by_cases h2 : 'n' = x
            · rw [← h2]; rfl
            · simp [pfx, h2] at hpf
        have hd : d = 'n' := by
          cases ds : rest with
          | nil =>
            rw [ds] at hn
            have : replaceEscN [d] = [d] := rfl
            rw [this] at hn
            cases hn
            rfl
          | cons e es =>
            rw [ds] at hn
            rw [replaceEscN] at hn
            by_cases h3 : d = '\\' ∧ e = 'n'
            · rw [if_pos h3] at hn
              cases hn
            · rw [if_neg h3] at hn
              cases hn
              rfl
        exact hcd ⟨h1.symm, hd⟩
      · rw [pfx, if_neg h1] at hpf
        cases hpf
    | false => rfl

theorem replaceEscN_id : ∀ l, containsSub "\\n".data l = false → replaceEscN l = l := by
  intro l
  induction l using replaceEscN.induct with
  | case1 => intro _; rfl
  | case2 c => intro _; rfl
  | case3 c d rest hcd ih =>
    intro h
    exfalso
    obtain ⟨hc, hd⟩ := hcd
    subst hc; subst hd
    have : pfx "\\n".data ('\\' :: 'n' :: rest) = true := by simp [pfx]
    rw [containsSub, this] at h
    simp at h
  | case4 c d rest hcd ih =>
    intro h
    rw [replaceEscN, if_neg hcd]
    have hrest : containsSub "\\n".data (d :: rest) = false := by
      cases hx : containsSub "\\n".data (d :: rest) with
      | false => rfl
      | true => rw [ctns_cons c hx] at h; cases h
    rw [ih hrest]

/-! ### collapseWs lemmas -/

theorem pendWs_none : pendWs none := fun _ _ h => by cases h

theorem pendWs_bump {pend : Option (Char × Bool)} {c : Char}
    (hp : pendWs pend) (hc : isWs c = true) : pendWs (bumpPend pend c) := by
  intro x b h
  cases pend with
  | none => cases h; exact hc
  | some p =>
    obtain ⟨c0, b0⟩ := p
    have h1 : (some (c0, true) : Option (Char × Bool)) = some (x, b) := h
    injection h1 with h2
    injection h2 with h3 h4
    rw [← h3]
    exact hp c0 b0 rfl

theorem bumpPend_ne_none (pend : Option (Char × Bool)) (c : Char) :
    bumpPend pend c ≠ none := by
  cases pend with
  | none => simp [bumpPend]
  | some p => obtain ⟨c0, b0⟩ := p; simp [bumpPend]

theorem flushPend_some {pend : Option (Char × Bool)} (hp : pendWs pend)
    (hne : pend ≠ none) : ∃ w, flushPend pend = [w] ∧ isWs w = true := by
  cases pend with
  | none => exact absurd rfl hne
  | some p =>
    obtain ⟨c0, b0⟩ := p
    cases b0 with
    | false => exact ⟨c0, rfl, hp c0 false rfl⟩
    | true => exact ⟨' ', rfl, by decide⟩

theorem pfx_collapseGo :
    ∀ (l : List Char) (pend : Option (Char × Bool)) (pat : List Char),
      pat ≠ [] → (∀ ch ∈ pat, isWs ch = false) → pendWs pend →
      pfx pat (collapseGo pend l) = true → pend = none ∧ pfx pat l = true := by
  intro l
  induction l with
  | nil =>
    intro pend pat hne hnw hws h
    rw [collapseGo] at h
    cases pat with
    | nil => exact absurd rfl hne
    | cons p ps =>
      by_cases hpn : pend = none
      · subst hpn
        simp [flushPend, pfx] at h
      · obtain ⟨w, hw, hwws⟩ := flushPend_some hws hpn
        rw [hw] at h
        by_cases hpw : p = w
        · have : isWs p = false := hnw p (List.mem_cons_self p ps)
          rw [hpw, hwws] at this
          cases this
        · simp [pfx, hpw] at h
  | cons c rest ih =>
    intro pend pat hne hnw hws h
    by_cases hc : isWs c
    · rw [collapseGo, if_pos hc] at h
      obtain ⟨habs, -⟩ := ih (bumpPend pend c) pat hne hnw (pendWs_bump hws hc) h
      exact absurd habs (bumpPend_ne_none pend c)
    · rw [collapseGo, if_neg hc] at h
      by_cases hpn : pend = none
      · subst hpn
        rw [flushPend, List.nil_append] at h
        cases pat with
        | nil => exact absurd rfl hne
        | cons p ps =>
          by_cases hpc : p = c
          · rw [pfx, if_pos hpc] at h
            cases hps : ps with
            | nil =>
              refine ⟨rfl, ?_⟩
              rw [pfx, if_pos hpc]
              rfl
            | cons q qs =>
              rw [hps] at h
              obtain ⟨-, h2⟩ := ih none (q :: qs) (by simp)
                (fun x hx => hnw x (hps ▸ List.mem_cons_of_mem p hx)) pendWs_none h
              refine ⟨rfl, ?_⟩
              rw [pfx, if_pos hpc]
              exact h2
          · rw [pfx, if_neg hpc] at h
            cases h
      · obtain ⟨w, hw, hwws⟩ := flushPend_some hws hpn
        rw [hw] at h
        cases pat with
        | nil => exact absurd rfl hne
        | cons p ps =>
          rw [List.cons_append] at h
          by_cases hpw : p = w
          · have : isWs p = false := hnw p (List.mem_cons_self p ps)
            rw [hpw, hwws] at this
            cases this
          · rw [pfx, if_neg hpw] at h
            cases h

theorem ctns_collapseGo :
    ∀ (l : List Char) (pend : Option (Char × Bool)) (pat : List Char),
      pat ≠ [] → (∀ ch ∈ pat, isWs ch = false) → pendWs pend →
      containsSub pat (collapseGo pend l) = true → containsSub pat l = true := by
  intro l
  induction l with
  | nil =>
    intro pend pat hne hnw hws h
    rw [collapseGo] at h
    by_cases hpn : pend = none
    · subst hpn
      rw [flushPend] at h
      cases pat with
      | nil => exact absurd rfl hne
      | cons p ps => simp [containsSub, pfx] at h
    · obtain ⟨w, hw, hwws⟩ := flushPend_some hws hpn
      rw [hw] at h
      cases pat with
      | nil => exact absurd rfl hne
      | cons p ps =>
        rw [containsSub, Bool.or_eq_true] at h
        rcases h with h | h
        · by_cases hpw : p = w
          · have : isWs p = false := hnw p (List.mem_cons_self p ps)
            rw [hpw, hwws] at this
            cases this
          · rw [pfx, if_neg hpw] at h
            cases h
        · rw [containsSub] at h
          simp at h
  | cons c rest ih =>
    intro pend pat hne hnw hws h
    by_cases hc : isWs c
    · rw [collapseGo, if_pos hc] at h
      exact ctns_cons c (ih (bumpPend pend c) pat hne hnw (pendWs_bump hws hc) h)
    · rw [collapseGo, if_neg hc] at h
      have hcore : containsSub pat (c :: collapseGo none rest) = true →
          containsSub pat (c :: rest) = true := by
        intro h2
        rw [containsSub, Bool.or_eq_true] at h2
        rcases h2 with h2 | h2
        · cases pat with
          | nil => exact absurd rfl hne
          | cons p ps =>
            by_cases hpc : p = c
            · rw [pfx, if_pos hpc] at h2
              cases hps : ps with
              | nil =>
                apply ctns_of_pfx
                rw [pfx, if_pos hpc]
                rfl
              | cons q qs =>
                rw [hps] at h2
                obtain ⟨-, h3⟩ := pfx_collapseGo rest none (q :: qs) (by simp)
                  (fun x hx => hnw x (hps ▸ List.mem_cons_of_mem p hx)) pendWs_none h2
                apply ctns_of_pfx
                rw [pfx, if_pos hpc]
                exact h3
            · rw [pfx, if_neg hpc] at h2
              cases h2
        · exact ctns_cons c (ih none pat hne hnw pendWs_none h2)
      by_cases hpn : pend = none
      · subst hpn
        rw [flushPend, List.nil_append] at h
        exact hcore h
      · obtain ⟨w, hw, hwws⟩ := flushPend_some hws hpn
        rw [hw, List.cons_append] at h
        rw [containsSub, Bool.or_eq_true] at h
        rcases h with h | h
        · cases pat with
          | nil => exact absurd rfl hne
          | cons p ps =>
            by_cases hpw : p = w
            · have : isWs p = false := hnw p (List.mem_cons_self p ps)
              rw [hpw, hwws] at this
              cases this
            · rw [pfx, if_neg hpw] at h
              cases h
        · exact hcore h

theorem ctns_collapseWs {pat l : List Char} (hne : pat ≠ [])
    (hnw : ∀ ch ∈ pat, isWs ch = false)
    (h : containsSub pat (collapseWs l) = true) : containsSub pat l = true :=
  ctns_collapseGo l none pat hne hnw pendWs_none h

/-! ### No-adjacent-whitespace predicate -/

theorem noWsPair_cons_cons_of_pair {c1 c2 : Char} {rest : List Char}
    (hpair : (isWs c1 && isWs c2) = false)
    (h : noWsPair (c2 :: rest) = true) : noWsPair (c1 :: c2 :: rest) = true := by
  show (!(isWs c1 && isWs c2) && noWsPair (c2 :: rest)) = true
  rw [hpair, h]
  rfl

theorem noWsPair_tail {c : Char} {t : List Char} (h : noWsPair (c :: t) = true) :
    noWsPair t = true := by
  cases t with
  | nil => rfl
  | cons d ds =>
    rw [noWsPair, Bool.and_eq_true] at h
    exact h.2

theorem noWsPair_cons_of {c : Char} {t : List Char} (hc : isWs c = false)
    (ht : noWsPair t = true) : noWsPair (c :: t) = true := by
  cases t with
  | nil => rfl
  | cons d ds =>
    rw [noWsPair, Bool.and_eq_true]
    exact ⟨by rw [hc]; rfl, ht⟩

theorem noWsPair_append_right {a b : List Char} (h : noWsPair (a ++ b) = true) :
    noWsPair b = true := by
  induction a with
  | nil => exact h
  | cons x a ih => exact ih (noWsPair_tail h)

theorem noWsPair_append_left {a : List Char} (b : List Char)
    (h : noWsPair (a ++ b) = true) : noWsPair a = true := by
  induction a with
  | nil => rfl
  | cons x a ih =>
    cases a with
    | nil => rfl
    | cons x2 a2 =>
      rw [List.cons_append, List.cons_append, noWsPair, Bool.and_eq_true] at h
      rw [noWsPair, Bool.and_eq_true]
      exact ⟨h.1, ih (by rw [List.cons_append]; exact h.2)⟩

theorem noWsPair_infix {m : List Char} (a b : List Char)
    (h : noWsPair (a ++ m ++ b) = true) : noWsPair m = true :=
  noWsPair_append_left b (noWsPair_append_right (by rw [← List.append_assoc]; exact h))

theorem collapseGo_noWsPair :
    ∀ (l : List Char) (pend : Option (Char × Bool)), pendWs pend →
      noWsPair (collapseGo pend l) = true := by
  intro l
  induction l with
  | nil =>
    intro pend hws
    rw [collapseGo]
    by_cases hpn : pend = none
    · subst hpn; rfl
    · obtain ⟨w, hw, -⟩ := flushPend_some hws hpn
      rw [hw]
      rfl
  | cons c rest ih =>
    intro pend hws
    by_cases hc : isWs c
    · rw [collapseGo, if_pos hc]
      exact ih (bumpPend pend c) (pendWs_bump hws hc)
    · rw [collapseGo, if_neg hc]
      have hX : noWsPair (c :: collapseGo none rest) = true :=
        noWsPair_cons_of (by simpa using hc) (ih none pendWs_none)
      by_cases hpn : pend = none
      · subst hpn
        rw [flushPend, List.nil_append]
        exact hX
      · obtain ⟨w, hw, -⟩ := flushPend_some hws hpn
        rw [hw, List.cons_append]
        have hcf : isWs c = false := by simpa using hc
        exact noWsPair_cons_cons_of_pair (by rw [hcf, Bool.and_false]) hX

theorem collapseGo_id :
    ∀ (l : List Char) (pend : Option (Char × Bool)), pendWs pend → pendSingle pend →
      noWsPair (flushPend pend ++ l) = true → collapseGo pend l = flushPend pend ++ l := by
  intro l
  induction l with
  | nil =>
    intro pend _ _ _
    rw [collapseGo, List.append_nil]
  | cons c rest ih =>
    intro pend hws hsingle h
    by_cases hc : isWs c
    · cases pend with
      | none =>
        rw [collapseGo, if_pos hc]
        have hpw : pendWs (some (c, false)) := by
          intro x b hx
          have hx2 : (some (c, false) : Option (Char × Bool)) = some (x, b) := hx
          injection hx2 with hx3
          injection hx3 with hx4 hx5
          rw [← hx4]
          exact hc
        have := ih (some (c, false)) hpw
          (fun x hx => by cases hx)
          (by rw [flushPend, List.singleton_append]; simpa using h)
        show collapseGo (some (c, false)) rest = flushPend none ++ c :: rest
        rw [this]
        rfl
      | some p =>
        obtain ⟨c0, b0⟩ := p
        cases b0 with
        | true => exact absurd rfl (hsingle c0)
        | false =>
          exfalso
          rw [flushPend, List.singleton_append, noWsPair, Bool.and_eq_true] at h
          have h1 := h.1
          rw [hws c0 false rfl, hc] at h1
          cases h1
    · rw [collapseGo, if_neg hc]
      have hrest : noWsPair ([] ++ rest) = true := by
        rw [List.nil_append]
        exact noWsPair_tail (noWsPair_append_right (a := flushPend pend) h)
      rw [ih none pendWs_none (fun x hx => by cases hx) hrest, flushPend,
        List.nil_append]

theorem collapseWs_id {l : List Char} (h : noWsPair l = true) : collapseWs l = l := by
  rw [collapseWs, collapseGo_id l none pendWs_none (fun x hx => by cases hx)
    (by rw [flushPend, List.nil_append]; exact h), flushPend, List.nil_append]

theorem noWsPair_append_glue {a b : List Char} (ha : noWsPair a = true)
    (hb : noWsPair b = true)
    (hbd : ∀ x y, a.getLast? = some x → b.head? = some y → (isWs x && isWs y) = false) :
    noWsPair (a ++ b) = true := by
  induction a with
  | nil => exact hb
  | cons x a ih =>
    cases a with
    | nil =>
      cases b with
      | nil => rfl
      | cons y b' =>
        rw [List.singleton_append]
        exact noWsPair_cons_cons_of_pair (hbd x y rfl rfl) hb
    | cons x2 a2 =>
      rw [List.cons_append, List.cons_append, noWsPair, Bool.and_eq_true]
      rw [noWsPair, Bool.and_eq_true] at ha
      refine ⟨ha.1, ?_⟩
      rw [← List.cons_append]
      exact ih ha.2 fun u v hu hv =>
        hbd u v (by rw [List.getLast?_cons_cons]; exact hu) hv

theorem joinLines_head? {m : List Char} (ms : List (List Char)) (hm : m ≠ []) :
    (joinLines (m :: ms)).head? = m.head? := by
  cases ms with
  | nil => rfl
  | cons z zs =>
    cases m with
    | nil => exact absurd rfl hm
    | cons x xs => rfl

theorem noWsPair_joinLines :
    ∀ ls : List (List Char),
      (∀ l ∈ ls, l ≠ [] ∧ (∀ c, l.head? = some c → isWs c = false) ∧
        (∀ c, l.getLast? = some c → isWs c = false) ∧ noWsPair l = true) →
      noWsPair (joinLines ls) = true := by
  intro ls
  induction ls with
  | nil => intro _; rfl
  | cons l ls ih =>
    intro h
    cases ls with
    | nil => exact (h l (List.mem_singleton_self l)).2.2.2
    | cons m ms =>
      have hJ : joinLines (l :: m :: ms) = l ++ '\n' :: joinLines (m :: ms) := rfl
      rw [hJ]
      obtain ⟨hlne, hlh, hll, hlp⟩ := h l (List.mem_cons_self l _)
      have hrest := ih fun x hx => h x (List.mem_cons_of_mem l hx)
      obtain ⟨hmne, hmh, -, -⟩ := h m (List.mem_cons_of_mem l (List.mem_cons_self m ms))
      have hpair : noWsPair ('\n' :: joinLines (m :: ms)) = true := by
        cases hJm : joinLines (m :: ms) with
        | nil => rfl
        | cons y ys =>
          rw [noWsPair, Bool.and_eq_true]
          refine ⟨?_, by rw [← hJm]; exact hrest⟩
          have hy : (joinLines (m :: ms)).head? = some y := by rw [hJm]; rfl
          rw [joinLines_head? ms hmne] at hy
          rw [hmh y hy, Bool.and_false]
          rfl
      refine noWsPair_append_glue hlp hpair ?_
      intro x y hx hy
      rw [hll x hx, Bool.false_and]

/-! ### dropEcho lemmas -/

theorem splitLines_dropEchoKey (key t : List Char) :
    splitLines (dropEchoKey key t) =
      (splitLines t).map fun l => if containsSub key l then [] else l := by
  rw [dropEchoKey]
  apply splitLines_joinLines
  · intro h
    exact splitLines_ne_nil t (by simpa using h)
  · intro x hx
    obtain ⟨y, hy, hfy⟩ := List.mem_map.mp hx
    by_cases hc : containsSub key y = true
    · rw [← hfy, if_pos hc]
      simp
    · rw [← hfy, if_neg hc]
      exact mem_splitLines_no_newline hy

theorem ctns_of_mem_splitLines {pat y X : List Char} (hy : y ∈ splitLines X)
    (h : containsSub pat y = true) : containsSub pat X = true := by
  obtain ⟨a, b, hab⟩ := mem_splitLines_decomp hy
  rw [hab]
  exact ctns_infix a b h

theorem ctns_dropEchoKey_to {pat key X : List Char} (hp : pat ≠ [])
    (hnl : '\n' ∉ pat) (h : containsSub pat (dropEchoKey key X) = true) :
    ∃ y ∈ splitLines X, containsSub pat y = true ∧ containsSub key y = false := by
  rw [dropEchoKey] at h
  obtain ⟨L, hL, hctns⟩ := ctns_joinLines _ hp hnl h
  obtain ⟨y, hy, hfy⟩ := List.mem_map.mp hL
  by_cases hc : containsSub key y = true
  · rw [← hfy, if_pos hc] at hctns
    rw [containsSub, List.isEmpty_iff] at hctns
    exact absurd hctns hp
  · rw [← hfy, if_neg hc] at hctns
    exact ⟨y, hy, hctns, by simpa using hc⟩

theorem ctns_model_dropEcho (t : List Char) :
    containsSub "model=".data (dropEcho t) = false := by
  cases hx : containsSub "model=".data (dropEcho t) with
  | false => rfl
  | true =>
    exfalso
    have hp : "model=".data ≠ [] := by decide
    have hnl : '\n' ∉ "model=".data := by decide
    rw [dropEcho] at hx
    obtain ⟨y1, hy1, hc1, -⟩ := ctns_dropEchoKey_to hp hnl hx
    obtain ⟨y2, hy2, hc2, -⟩ := ctns_dropEchoKey_to hp hnl (ctns_of_mem_splitLines hy1 hc1)
    obtain ⟨y3, hy3, hc3, -⟩ := ctns_dropEchoKey_to hp hnl (ctns_of_mem_splitLines hy2 hc2)
    obtain ⟨y4, hy4, hc4, hno⟩ := ctns_dropEchoKey_to hp hnl (ctns_of_mem_splitLines hy3 hc3)
    rw [hc4] at hno
    cases hno

/-- No line of a sanitized response contains a `model=` fragment: the
echo-removal pass empties every such line, and the later pipeline steps
(escaped-newline replacement, whitespace collapsing, trimming, line
merging) can never bring the six characters of `model=` together. -/
theorem clean_response_lines_no_model :
    ∀ (text l : List Char), l ∈ splitLines (clean_response text) →
      containsSub "model=".data l = false := by
  intro text l hl
  cases hx : containsSub "model=".data l with
  | false => rfl
  | true =>
    exfalso
    have hp : "model=".data ≠ [] := by decide
    have hnl : '\n' ∉ "model=".data := by decide
    have hnw : ∀ ch ∈ "model=".data, isWs ch = false := by decide
    have hl2 : l ∈ splitLines (joinLines
        (((splitLines (collapseWs (replaceEscN (dropEcho (subItalic (subBold text)))))).map
          trim).filter keepLine)) := hl
    cases hls : ((splitLines (collapseWs (replaceEscN (dropEcho (subItalic
        (subBold text)))))).map trim).filter keepLine with
    | nil =>
      rw [hls] at hl2
      have h3 : l ∈ ([[]] : List (List Char)) := hl2
      have h4 : l = [] := by simpa using h3
      rw [h4] at hx
      cases hx
    | cons l0 ls0 =>
      have hmem : ∀ x, x ∈ l0 :: ls0 → '\n' ∉ x := by
        intro x hxm
        have : x ∈ ((splitLines (collapseWs (replaceEscN (dropEcho (subItalic
            (subBold text)))))).map trim).filter keepLine := by rw [hls]; exact hxm
        obtain ⟨y, hy, hfy⟩ := List.mem_map.mp (List.mem_of_mem_filter this)
        rw [← hfy]
        intro hin
        exact mem_splitLines_no_newline hy (mem_trim hin)
      rw [hls, splitLines_joinLines (by simp) hmem] at hl2
      have hl3 : l ∈ ((splitLines (collapseWs (replaceEscN (dropEcho (subItalic
          (subBold text)))))).map trim).filter keepLine := by rw [hls]; exact hl2
      obtain ⟨y, hy, hfy⟩ := List.mem_map.mp (List.mem_of_mem_filter hl3)
      rw [← hfy] at hx
      have hx2 : containsSub "model=".data y = true := ctns_trim hx
      have hx3 := ctns_of_mem_splitLines hy hx2
      have hx4 := ctns_collapseWs hp hnw hx3
      have hx5 := ctns_replaceEscN hnl hp _ hx4
      rw [ctns_model_dropEcho] at hx5
      cases hx5

/-! ### C2 — model= line removal (amended) -/

/-- C2 amended: the `model=`-containing lines are removed — no line of
the sanitized output contains a `model=` fragment, for every input — but
the other lines are not guaranteed to survive as distinct lines: on
`"a\nmodel=x\nb"` the removal leaves a blank line whose surrounding
newlines are collapsed into one space, so the output is the single
merged line `a b`. -/
theorem c2_amended_model_absent :
    (∀ (text l : List Char), l ∈ splitLines (clean_response text) →
        containsSub "model=".data l = false) ∧
      splitLines (clean_response "a\nmodel=x\nb".data) = ["a b".data] :=
  ⟨clean_response_lines_no_model, by decide⟩

/-! ### C7 — Idempotence once clean -/

theorem map_trim_self {L : List (List Char)} (h : ∀ l ∈ L, trim l = l) :
    L.map trim = L := by
  induction L with
  | nil => rfl
  | cons a as ih =>
    rw [List.map_cons, h a (List.mem_cons_self a as),
      ih fun l hl => h l (List.mem_cons_of_mem a hl)]

/-- C7: `_clean_response` is idempotent on inputs already clean after one
pass — whenever step 1 (markup removal) and step 2 (echo-line removal)
leave `clean_response x` unchanged, a second full sanitization pass
returns it unchanged: the remaining steps (escaped newlines, whitespace
collapse, trim/filter/rejoin) are provably the identity on every
one-pass output. -/
theorem c7_idempotent_once_clean :
    ∀ x : List Char, artifactFree (clean_response x) →
      clean_response (clean_response x) = clean_response x := by
  intro x hart
  obtain ⟨hb, hi, hd⟩ := hart
  cases hls : ((splitLines (collapseWs (replaceEscN (dropEcho (subItalic
      (subBold x)))))).map trim).filter keepLine with
  | nil =>
    have hy : clean_response x = [] := by
      show joinLines (((splitLines (collapseWs (replaceEscN (dropEcho (subItalic
          (subBold x)))))).map trim).filter keepLine) = []
      rw [hls]
      rfl
    rw [hy]
    decide
  | cons l0 ls0 =>
    have hy : clean_response x = joinLines (l0 :: ls0) := by
      show joinLines (((splitLines (collapseWs (replaceEscN (dropEcho (subItalic
          (subBold x)))))).map trim).filter keepLine) = joinLines (l0 :: ls0)
      rw [hls]
    have hmemF : ∀ l, l ∈ l0 :: ls0 →
        l ∈ ((splitLines (collapseWs (replaceEscN (dropEcho (subItalic
          (subBold x)))))).map trim).filter keepLine := by
      intro l h
      rw [hls]
      exact h
    have hkeep : ∀ l ∈ l0 :: ls0, keepLine l = true := fun l h =>
      List.of_mem_filter (hmemF l h)
    have hne : ∀ l ∈ l0 :: ls0, l ≠ [] := by
      intro l h hnil
      have h2 := hkeep l h
      rw [hnil] at h2
      cases h2
    have hsrc : ∀ l ∈ l0 :: ls0, ∃ m ∈ splitLines (collapseWs (replaceEscN (dropEcho
        (subItalic (subBold x))))), l = trim m := by
      intro l h
      obtain ⟨m, hm, hfm⟩ := List.mem_map.mp (List.mem_of_mem_filter (hmemF l h))
      exact ⟨m, hm, hfm.symm⟩
    have hT : noWsPair (collapseWs (replaceEscN (dropEcho (subItalic
        (subBold x))))) = true := collapseGo_noWsPair _ none pendWs_none
    have hTesc : containsSub "\\n".data (collapseWs (replaceEscN (dropEcho (subItalic
        (subBold x))))) = false := by
      cases hxx : containsSub "\\n".data (collapseWs (replaceEscN (dropEcho (subItalic
          (subBold x))))) with
      | false => rfl
      | true =>
        exfalso
        have h2 := ctns_collapseWs (by decide) (by decide) hxx
        rw [noEsc_replaceEscN] at h2
        cases h2
    have hnwl : ∀ l ∈ l0 :: ls0, noWsPair l = true := by
      intro l h
      obtain ⟨m, hm, rfl⟩ := hsrc l h
      obtain ⟨a, b, hab⟩ := mem_splitLines_decomp hm
      have hm2 : noWsPair m = true := noWsPair_infix a b (by rw [← hab]; exact hT)
      obtain ⟨a2, b2, hab2⟩ := trim_decomp m
      exact noWsPair_infix a2 b2 (by rw [← hab2]; exact hm2)
    have hescl : ∀ l ∈ l0 :: ls0, containsSub "\\n".data l = false := by
      intro l h
      obtain ⟨m, hm, rfl⟩ := hsrc l h
      cases hxx : containsSub "\\n".data (trim m) with
      | false => rfl
      | true =>
        exfalso
        have h2 := ctns_of_mem_splitLines hm (ctns_trim hxx)
        rw [hTesc] at h2
        cases h2
    have hheads : ∀ l ∈ l0 :: ls0, ∀ c, l.head? = some c → isWs c = false := by
      intro l h c hc
      obtain ⟨m, -, rfl⟩ := hsrc l h
      exact trim_head_not_ws m c hc
    have hlasts : ∀ l ∈ l0 :: ls0, ∀ c, l.getLast? = some c → isWs c = false := by
      intro l h c hc
      obtain ⟨m, -, rfl⟩ := hsrc l h
      exact trim_last_not_ws m c hc
    have hnln : ∀ l ∈ l0 :: ls0, '\n' ∉ l := by
      intro l h hmem
      obtain ⟨m, hm, rfl⟩ := hsrc l h
      exact mem_splitLines_no_newline hm (mem_trim hmem)
    have htr : ∀ l ∈ l0 :: ls0, trim l = l := by
      intro l h
      obtain ⟨m, -, rfl⟩ := hsrc l h
      exact trim_trim m
    have hynw : noWsPair (joinLines (l0 :: ls0)) = true :=
      noWsPair_joinLines _ fun l h => ⟨hne l h, hheads l h, hlasts l h, hnwl l h⟩
    have hyesc : containsSub "\\n".data (joinLines (l0 :: ls0)) = false := by
      cases hxx : containsSub "\\n".data (joinLines (l0 :: ls0)) with
      | false => rfl
      | true =>
        exfalso
        obtain ⟨l, h, hc⟩ := ctns_joinLines _ (by decide) (by decide) hxx
        rw [hescl l h] at hc
        cases hc
    have hb2 : subBold (joinLines (l0 :: ls0)) = joinLines (l0 :: ls0) := by
      rw [← hy]; exact hb
    have hi2 : subItalic (joinLines (l0 :: ls0)) = joinLines (l0 :: ls0) := by
      rw [← hy]; exact hi
    have hd2 : dropEcho (joinLines (l0 :: ls0)) = joinLines (l0 :: ls0) := by
      rw [← hy]; exact hd
    rw [hy]
    show joinLines (((splitLines (collapseWs (replaceEscN (dropEcho (subItalic
        (subBold (joinLines (l0 :: ls0)))))))).map trim).filter keepLine)
      = joinLines (l0 :: ls0)
    rw [hb2, hi2, hd2, replaceEscN_id _ hyesc, collapseWs_id hynw,
      splitLines_joinLines (by simp) hnln, map_trim_self htr,
      List.filter_eq_self.mpr hkeep]

/-- Witness for C7 at a concrete input: `"hello\nworld"` sanitizes to
itself and is artifact-free, so a second pass is the identity on it. -/
theorem c7_idempotent_once_clean_witness :
    artifactFree (clean_response "hello\nworld".data) ∧
      clean_response (clean_response "hello\nworld".data) =
        clean_response "hello\nworld".data :=
  ⟨⟨by decide, by decide, by decide⟩,
    c7_idempotent_once_clean "hello\nworld".data ⟨by decide, by decide, by decide⟩⟩

/-! ### C1 — Prompt cache -/

/-- C1 counterexample: with an unreachable model endpoint, the second
`generate_response("p")` call does return the same string, but it is NOT
a cache hit — `called = true` records that a second outbound model call
was made, because the fallback result of the first call was never
cached. -/
theorem c1_counterexample :
    ¬ ((generate_response (generate_response [] failModel "p".data).cache failModel "p".data).result
          = (generate_response [] failModel "p".data).result ∧
       (generate_response (generate_response [] failModel "p".data).cache failModel "p".data).called
          = false) := by
  decide

/-- C1 amended: a second `generate_response(p)` in the same run always
returns exactly the string of the first call, and it is a silent cache
hit when the first call succeeded; but a fallback-producing first call
stores nothing, so the second call performs another outbound model
call. -/
theorem c1_amended_cache (model : List Char → Except Unit ChatResponse)
    (cache : Cache) (prompt : List Char)
    (hmiss : lookupCache cache prompt = none) :
    (generate_response (generate_response cache model prompt).cache model prompt).result
        = (generate_response cache model prompt).result ∧
      (∀ resp, model prompt = .ok resp →
        (generate_response (generate_response cache model prompt).cache model prompt).called
          = false) ∧
      (∀ e : Unit, model prompt = .error e →
        (generate_response (generate_response cache model prompt).cache model prompt).called
          = true) := by
  refine ⟨?_, ?_, ?_⟩
  · cases hm : model prompt <;> simp [generate_response, hmiss, hm, lookupCache]
  · intro resp hm
    simp [generate_response, hmiss, hm, lookupCache]
  · intro e hm
    simp [generate_response, hmiss, hm]

/-- Witness for C1 amended at a concrete input: empty cache, prompt `x`,
unreachable model. -/
theorem c1_amended_cache_witness :
    lookupCache [] "x".data = none ∧
      ((generate_response (generate_response [] failModel "x".data).cache failModel "x".data).result
          = (generate_response [] failModel "x".data).result ∧
        (∀ resp, failModel "x".data = .ok resp →
          (generate_response (generate_response [] failModel "x".data).cache failModel "x".data).called
            = false) ∧
        (∀ e : Unit, failModel "x".data = .error e →
          (generate_response (generate_response [] failModel "x".data).cache failModel "x".data).called
            = true)) :=
  ⟨rfl, c1_amended_cache failModel [] "x".data rfl⟩

/-! ### C4 — Fallback precedence -/

/-- C4: when the model call raises, `generate_response` returns the
static fallback selected on the lowercased prompt, in source precedence
order: `bullet points`, then `one line`/`one clear`, then `conclusion`,
else the generic failure message.  No failure propagates. -/
theorem c4_fallback_precedence (model : List Char → Except Unit ChatResponse)
    (cache : Cache) (prompt : List Char)
    (hmiss : lookupCache cache prompt = none)
    (herr : model prompt = .error ()) :
    (containsSub "bullet points".data (prompt.map Char.toLower) = true →
      (generate_response cache model prompt).result =
        "• Important historical milestone\n• Key development in AI\n• Significant innovation".data) ∧
    (containsSub "bullet points".data (prompt.map Char.toLower) = false →
      (containsSub "one line".data (prompt.map Char.toLower)
          || containsSub "one clear".data (prompt.map Char.toLower)) = true →
      (generate_response cache model prompt).result =
        "The history of artificial intelligence showcases humanity's quest to create machines that can think and learn.".data) ∧
    (containsSub "bullet points".data (prompt.map Char.toLower) = false →
      (containsSub "one line".data (prompt.map Char.toLower)
          || containsSub "one clear".data (prompt.map Char.toLower)) = false →
      containsSub "conclusion".data (prompt.map Char.toLower) = true →
      (generate_response cache model prompt).result =
        "The history of AI demonstrates our continuous progress in creating intelligent systems. From early rule-based systems to modern neural networks, each advancement brings us closer to machines that can truly think.".data) ∧
    (containsSub "bullet points".data (prompt.map Char.toLower) = false →
      (containsSub "one line".data (prompt.map Char.toLower)
          || containsSub "one clear".data (prompt.map Char.toLower)) = false →
      containsSub "conclusion".data (prompt.map Char.toLower) = false →
      (generate_response cache model prompt).result =
        "Content generation failed. Please try again with a different prompt.".data) := by
  refine ⟨?_, ?_, ?_, ?_⟩
  · intro h1
    simp [generate_response, hmiss, herr, fallback_content, h1]
  · intro h1 h2
    simp [generate_response, hmiss, herr, fallback_content, h1, h2]
  · intro h1 h2 h3
    simp [generate_response, hmiss, herr, fallback_content, h1, h2, h3]
  · intro h1 h2 h3
    simp [generate_response, hmiss, herr, fallback_content, h1, h2, h3]

/-- Witness for C4 at a concrete input: the prompt `Write BULLET POINTS`
(matching `bullet points` after lowercasing) with an unreachable model. -/
theorem c4_fallback_precedence_witness :
    (lookupCache [] "Write BULLET POINTS".data = none ∧
      failModel "Write BULLET POINTS".data = .error ()) ∧
      (containsSub "bullet points".data ("Write BULLET POINTS".data.map Char.toLower) = true ∧
        (generate_response [] failModel "Write BULLET POINTS".data).result =
          "• Important historical milestone\n• Key development in AI\n• Significant innovation".data) :=
  ⟨⟨rfl, rfl⟩, by decide,
    (c4_fallback_precedence failModel [] "Write BULLET POINTS".data rfl rfl).1 (by decide)⟩

/-! ### C8 — Bullet extractor refinement -/

/-- C8: `_extract_bullet_points` maps each non-empty trimmed input line
through one bullet-glyph strip, then one numbering strip, then emphasis
removal, discards lines that became empty, and preserves input order
(refinement against the spec-side `extractBulletsSpec`); in particular
`extract_bullets("• A\n- B\n1. C\n\n") == ["A", "B", "C"]`. -/
theorem c8_extract_bullets_spec :
    (∀ text, extract_bullet_points text = extractBulletsSpec text) ∧
      extract_bullet_points "• A\n- B\n1. C\n\n".data = ["A".data, "B".data, "C".data] :=
  ⟨extract_eq_spec, by decide⟩

/-! ### C5 — Bullet extractor output guarantee -/

/-- C5 counterexample: on `"1. - A\n1. 2. B"` the extractor returns
`["- A", "2. B"]` — the first output string contains (indeed starts with)
the raw glyph `-`, and the second starts with a `<digits>.` numbering
prefix, because only one leading layer is stripped per line. -/
theorem c5_counterexample :
    ¬ (∀ s ∈ extract_bullet_points "1. - A\n1. 2. B".data,
        (∀ c ∈ s, (c = '•' || c = '-' || c = '*') = false) ∧ hasNumPfx s = false) := by
  decide

/-- C5 amended: every output string is the non-empty residue of some
input line after stripping exactly one leading bullet glyph (plus
whitespace), then one leading `<digits>.` prefix, then emphasis markup —
so bullet glyphs occurring elsewhere in the line, or second stacked
prefixes, survive into the output. -/
theorem c5_amended_one_layer_stripped (text : List Char) (s : List Char)
    (hs : s ∈ extract_bullet_points text) :
    s ≠ [] ∧ ∃ l ∈ splitLines text,
      (trim l).isEmpty = false ∧ s = bulletLineRewrite (trim l) := by
  rw [extract_eq_spec, extractBulletsSpec, List.mem_filterMap] at hs
  obtain ⟨l, hl, hopt⟩ := hs
  simp only at hopt
  by_cases h1 : (trim l).isEmpty
  · simp [h1] at hopt
  · by_cases h2 : (bulletLineRewrite (trim l)).isEmpty
    · simp [h1, h2] at hopt
    · rw [if_neg h1, if_neg h2] at hopt
      have hopt' : bulletLineRewrite (trim l) = s := Option.some_inj.mp hopt
      subst hopt'
      exact ⟨by simpa [List.isEmpty_iff] using h2,
        l, hl, by simpa using h1, rfl⟩

/-- Witness for C5 amended at a concrete input: the single output `A` of
`extract_bullet_points "• A"`. -/
theorem c5_amended_one_layer_stripped_witness :
    ("A".data ∈ extract_bullet_points "• A".data) ∧
      ("A".data ≠ [] ∧ ∃ l ∈ splitLines "• A".data,
        (trim l).isEmpty = false ∧ "A".data = bulletLineRewrite (trim l)) :=
  ⟨by decide, c5_amended_one_layer_stripped "• A".data "A".data (by decide)⟩

/-! ### C10 — Preview slide has no minimum-length guarantee -/

/-- C10: when both the initial preview prompt and the retry prompt yield
fewer than 3 extracted bullet points, `generate_preview_slide` does not
pad: it returns the under-length retry list with each surviving point
re-prefixed by `• `. -/
theorem c10_no_padding (model : List Char → Except Unit ChatResponse)
    (cache : Cache) (topic : List Char)
    (h1 : (extract_bullet_points
            (generate_response cache model (previewPrompt topic)).result).length < 3)
    (h2 : (extract_bullet_points
            (generate_response (generate_response cache model (previewPrompt topic)).cache
              model (retryPrompt topic)).result).length < 3) :
    (generate_preview_slide cache model topic).bulletPoints =
        (extract_bullet_points
          (generate_response (generate_response cache model (previewPrompt topic)).cache
            model (retryPrompt topic)).result).map (fun p => "• ".data ++ p) ∧
      (generate_preview_slide cache model topic).bulletPoints.length < 3 := by
  exact ⟨by simp [generate_preview_slide, h1, h2],
    by simp [generate_preview_slide, h1, h2]⟩

/-- Witness for C10 at a concrete input: a model answering every prompt
with an empty payload yields zero bullet points on both attempts and an
empty (unpadded) result list. -/
theorem c10_no_padding_witness :
    ((extract_bullet_points
        (generate_response [] emptyModel (previewPrompt "T".data)).result).length < 3 ∧
      (extract_bullet_points
        (generate_response (generate_response [] emptyModel (previewPrompt "T".data)).cache
          emptyModel (retryPrompt "T".data)).result).length < 3) ∧
      ((generate_preview_slide [] emptyModel "T".data).bulletPoints =
          (extract_bullet_points
            (generate_response (generate_response [] emptyModel (previewPrompt "T".data)).cache
              emptyModel (retryPrompt "T".data)).result).map (fun p => "• ".data ++ p) ∧
        (generate_preview_slide [] emptyModel "T".data).bulletPoints.length < 3) :=
  ⟨⟨by decide, by decide⟩,
    c10_no_padding emptyModel [] "T".data (by decide) (by decide)⟩

/-! ### C6 — Preview end-to-end on the echoed response -/

/-- C6: with a model echoing `• P1\n• P2\n• P3`, the preview logic yields
exactly the bullet points `P1`, `P2`, `P3`; the slide's rendered
paragraph texts are listed in full (each point plus its synthesized
`• Example: ... in real-world applications` sub-bullet, every paragraph
carrying the `• ` prefix added by `_add_paragraph`), and no rendered
line starts with the literal `Example:`. -/
theorem c6_preview_end_to_end :
    (generate_preview_slide [] echoModel "T".data).bulletPoints
        = ["P1".data, "P2".data, "P3".data] ∧
      (generate_preview_slide [] echoModel "T".data).rendered
        = ["• P1".data, "• Example: P1 in real-world applications".data,
           "• P2".data, "• Example: P2 in real-world applications".data,
           "• P3".data, "• Example: P3 in real-world applications".data] ∧
      (∀ l ∈ (generate_preview_slide [] echoModel "T".data).rendered,
        pfx "Example:".data l = false) := by
  refine ⟨by decide, by decide, by decide⟩

/-! ### C2 — model= line removal (counterexample) -/

/-- C2 counterexample: on `"a\nmodel=x\nb"` the sanitizer does remove the
`model=` line, but the blank it leaves is collapsed with its two
surrounding newlines into a single space, merging `a` and `b` into the
one output line `a b` — so the other lines do NOT each appear as a
distinct line of the output. -/
theorem c2_counterexample :
    ¬ ((∀ l ∈ splitLines "a\nmodel=x\nb".data,
          containsSub "model=".data l = true →
            l ∉ splitLines (clean_response "a\nmodel=x\nb".data)) ∧
        ((splitLines "a\nmodel=x\nb".data).filter
            (fun l => !containsSub "model=".data l)).isSublist
          (splitLines (clean_response "a\nmodel=x\nb".data)) = true) := by
  decide

end PPTGen
